import Mathlib

/-!
Verification of the SECS spelling & grammar correction core.

The development shallowly embeds the algorithmic core of the repository:

* `user_preprocess.py`: the fixed linguistic tables (`AUX_VERBS`,
  `BASE_VERB_TO_ING`, `IRREGULAR_PAST`, `FUNCTION_WORDS`), the tokenizer
  inside `preprocess_user_input` (the regex `\b[a-z]+\b` applied to the
  lowercased text), and the grammar state machine `apply_display_grammar`.
* `app.py`: the suggestion re-sort of `suggestion_map` (Python's stable
  `sorted` keyed by `nltk.metrics.edit_distance`).

External NLTK components (the part-of-speech tagger and the WordNet
lemmatizer) are parameters of the embedding; `nltk.metrics.edit_distance`
with default arguments is exact unit-cost Levenshtein distance and is
embedded via Mathlib's `levenshtein` with `Levenshtein.defaultCost`.
Characters are modelled at ASCII granularity (Python's `\w` additionally
treats non-ASCII letters as word characters; all inputs considered here
are ASCII).
-/

namespace SECS

/-! ## Fixed linguistic tables (user_preprocess.py, lines 30-58) -/

/-- Auxiliary verbs (`AUX_VERBS` in user_preprocess.py). -/
def AUX_VERBS : List String := ["am", "is", "are", "was", "were", "has", "have", "had"]

/-- Present-participle table (`BASE_VERB_TO_ING` in user_preprocess.py).
A Python dict is embedded as a partial map; `none` models a missing key. -/
def BASE_VERB_TO_ING : String → Option String
  | "be" => some "being"
  | "have" => some "having"
  | "do" => some "doing"
  | "go" => some "going"
  | "rise" => some "rising"
  | "come" => some "coming"
  | "happen" => some "happening"
  | "move" => some "moving"
  | "determine" => some "determining"
  | "use" => some "using"
  | _ => none

/-- Past-participle table (`IRREGULAR_PAST` in user_preprocess.py). -/
def IRREGULAR_PAST : String → Option String
  | "move" => some "moved"
  | "go" => some "gone"
  | "come" => some "come"
  | "rise" => some "risen"
  | "be" => some "been"
  | "have" => some "had"
  | "do" => some "done"
  | _ => none

/-- Function words (`FUNCTION_WORDS` in user_preprocess.py). -/
def FUNCTION_WORDS : List String :=
  ["this", "that", "a", "an", "the", "and", "or", "of", "in", "on", "for", "to", "with", "by", "at"]

/-- The BE-auxiliary set tested by Rule A (`{"am","is","are","was","were"}`
inline in `apply_display_grammar`). -/
def BE_SET : List String := ["am", "is", "are", "was", "were"]

/-- The HAVE-auxiliary set tested by Rule B (`{"has","have","had"}` inline
in `apply_display_grammar`). -/
def HAS_SET : List String := ["has", "have", "had"]

/-- `BASE_VERB_TO_ING[tok]` (total version; only used under a key-membership
guard, where `getD` returns the stored value). -/
def ingOf (s : String) : String := (BASE_VERB_TO_ING s).getD s

/-- `IRREGULAR_PAST.get(tok, tok)` from user_preprocess.py: the past
participle with fallback to the lemma itself. -/
def pastOf (s : String) : String := (IRREGULAR_PAST s).getD s

/-! ## Grammar Transformer (`apply_display_grammar`, user_preprocess.py lines 87-140) -/

/-- The while-loop of `apply_display_grammar` as a recursive state machine.
`prev` is the last emitted display token (`display_tokens[-1] if i > 0 else ""`),
`i` the index of the current token in the original input. Returns the pair
(display tokens emitted from here on, grammar-corrected input indices). -/
def adgGo : List String → String → Nat → List String × List Nat
  | [], _, _ => ([], [])
  | tok :: rest, prev, i =>
    if prev ∈ BE_SET ∧ (BASE_VERB_TO_ING tok).isSome then
      let r := adgGo rest (ingOf tok) (i + 1)
      (ingOf tok :: r.1, i :: r.2)
    else if prev ∈ HAS_SET then
      if tok == "not" then
        match rest with
        | next :: rest2 =>
          let r := adgGo rest2 (pastOf next) (i + 2)
          (tok :: pastOf next :: r.1, (i + 1) :: r.2)
        | [] =>
          -- `i + 1 < len(tokens)` fails, so the else-branch of Rule B runs on
          -- the final token and the loop terminates.
          ([pastOf tok], [i])
      else
        let r := adgGo rest (pastOf tok) (i + 1)
        (pastOf tok :: r.1, i :: r.2)
    else
      let r := adgGo rest tok (i + 1)
      (tok :: r.1, r.2)

/-- `apply_display_grammar(tokens)` from user_preprocess.py: display tokens
plus the list of grammar-corrected positions. -/
def apply_display_grammar (tokens : List String) : List String × List Nat :=
  adgGo tokens "" 0

example : apply_display_grammar ["bitcoin", "is", "rise", "this", "year"] =
    (["bitcoin", "is", "rising", "this", "year"], [2]) := by decide

example : apply_display_grammar ["she", "has", "go", "to", "the", "market"] =
    (["she", "has", "gone", "to", "the", "market"], [2]) := by decide

example : apply_display_grammar ["of", "bitcoin", "has", "not", "move", "in", "a", "year"] =
    (["of", "bitcoin", "has", "not", "moved", "in", "a", "year"], [4]) := by decide

/-! ### Small facts about the fixed tables -/

theorem ing_not_none : BASE_VERB_TO_ING "not" = none := rfl

theorem has_not_be {s : String} (h : s ∈ HAS_SET) : s ∉ BE_SET := by
  fin_cases h <;> decide

theorem be_not_has {s : String} (h : s ∈ BE_SET) : s ∉ HAS_SET := by
  fin_cases h <;> decide

/-- No value of the present-participle table is itself a key of the table. -/
theorem ing_value_not_key (s v : String) (h : BASE_VERB_TO_ING s = some v) :
    BASE_VERB_TO_ING v = none := by
  unfold BASE_VERB_TO_ING at h
  split at h <;> cases h <;> rfl

/-- Every value of the past-participle table is a fixed point of `pastOf`. -/
theorem pastOf_value_fixed (s v : String) (h : IRREGULAR_PAST s = some v) :
    pastOf v = v := by
  unfold IRREGULAR_PAST at h
  split at h <;> cases h <;> rfl

/-- `pastOf` is idempotent: re-applying the past-participle fallback map to
its own output changes nothing. -/
theorem pastOf_idem (s : String) : pastOf (pastOf s) = pastOf s := by
  cases hv : IRREGULAR_PAST s with
  | none => simp [pastOf, hv]
  | some v => simpa [pastOf, hv] using pastOf_value_fixed s v hv

/-- The only lemma whose past-participle fallback is "not" is "not" itself. -/
theorem pastOf_eq_not (s : String) (h : pastOf s = "not") : s = "not" := by
  cases hv : IRREGULAR_PAST s with
  | none => simpa [pastOf, hv] using h
  | some v =>
      rw [pastOf, hv, Option.getD_some] at h
      subst h
      unfold IRREGULAR_PAST at hv
      split at hv <;> simp_all

/-! ### Step equations for the state machine -/

theorem adgGo_nil (prev : String) (i : Nat) : adgGo [] prev i = ([], []) := rfl

/-- Rule A (progressive) step. -/
theorem adgGo_ruleA {prev tok : String} (h1 : prev ∈ BE_SET)
    (h2 : (BASE_VERB_TO_ING tok).isSome) (rest : List String) (i : Nat) :
    adgGo (tok :: rest) prev i =
      (ingOf tok :: (adgGo rest (ingOf tok) (i + 1)).1,
        i :: (adgGo rest (ingOf tok) (i + 1)).2) := by
  rw [adgGo.eq_def]
  dsimp only
  rw [if_pos ⟨h1, h2⟩]

/-- Rule B (perfect), negation branch. -/
theorem adgGo_ruleB_not {prev : String} (hHas : prev ∈ HAS_SET)
    (next : String) (rest2 : List String) (i : Nat) :
    adgGo ("not" :: next :: rest2) prev i =
      ("not" :: pastOf next :: (adgGo rest2 (pastOf next) (i + 2)).1,
        (i + 1) :: (adgGo rest2 (pastOf next) (i + 2)).2) := by
  rw [adgGo.eq_def]
  dsimp only
  rw [if_neg (by simp [ing_not_none]), if_pos hHas, if_pos (by decide)]

/-- Rule B (perfect) on the very last input token (also covers a trailing
"not", for which `i + 1 < len(tokens)` fails). -/
theorem adgGo_ruleB_one {prev : String} (tok : String)
    (hA : ¬(prev ∈ BE_SET ∧ (BASE_VERB_TO_ING tok).isSome = true))
    (hHas : prev ∈ HAS_SET) (i : Nat) :
    adgGo [tok] prev i = ([pastOf tok], [i]) := by
  rw [adgGo.eq_def]
  dsimp only
  rw [if_neg hA, if_pos hHas]
  by_cases h : (tok == "not") = true
  · rw [if_pos h]
  · rw [if_neg h]
    simp [adgGo]

/-- Rule B (perfect), plain branch on a non-"not" token. -/
theorem adgGo_ruleB_else {prev : String} (tok : String)
    (hA : ¬(prev ∈ BE_SET ∧ (BASE_VERB_TO_ING tok).isSome = true))
    (hHas : prev ∈ HAS_SET) (hne : (tok == "not") = false)
    (rest : List String) (i : Nat) :
    adgGo (tok :: rest) prev i =
      (pastOf tok :: (adgGo rest (pastOf tok) (i + 1)).1,
        i :: (adgGo rest (pastOf tok) (i + 1)).2) := by
  rw [adgGo.eq_def]
  dsimp only
  rw [if_neg hA, if_pos hHas, if_neg (by simp [hne])]

/-- Default step: the token is copied verbatim. -/
theorem adgGo_default {prev : String} (tok : String)
    (hA : ¬(prev ∈ BE_SET ∧ (BASE_VERB_TO_ING tok).isSome = true))
    (hHas : prev ∉ HAS_SET) (rest : List String) (i : Nat) :
    adgGo (tok :: rest) prev i =
      (tok :: (adgGo rest tok (i + 1)).1, (adgGo rest tok (i + 1)).2) := by
  rw [adgGo.eq_def]
  dsimp only
  rw [if_neg hA, if_neg hHas]

/-- The state machine emits exactly one display token per consumed input
token, in every branch. -/
theorem adgGo_length (ts : List String) (prev : String) (i : Nat) :
    (adgGo ts prev i).1.length = ts.length := by
  induction ts, prev, i using adgGo.induct with
  | case1 prev i => simp [adgGo]
  | case2 tok rest prev i h ih =>
      rw [adgGo.eq_def]
      dsimp only
      rw [if_pos h]
      simp [ih]
  | case3 tok prev i hA hHas hTok next rest2 ih =>
      rw [adgGo, if_neg hA, if_pos hHas, if_pos hTok]
      simp [ih]
  | case4 tok prev i hA hHas hTok =>
      rw [adgGo, if_neg hA, if_pos hHas, if_pos hTok]
      simp
  | case5 tok rest prev i hA hHas hTok ih =>
      rw [adgGo.eq_def]
      dsimp only
      rw [if_neg hA, if_pos hHas, if_neg hTok]
      simp [ih]
  | case6 tok rest prev i hA hHas ih =>
      rw [adgGo.eq_def]
      dsimp only
      rw [if_neg hA, if_neg hHas]
      simp [ih]

/-- Every recorded correction index lies in the consumed input range
`[i, i + length)`. -/
theorem adgGo_indices_bounds (ts : List String) (prev : String) (i : Nat) :
    ∀ j ∈ (adgGo ts prev i).2, i ≤ j ∧ j < i + ts.length := by
  induction ts, prev, i using adgGo.induct with
  | case1 prev i => simp [adgGo]
  | case2 tok rest prev i h ih =>
      rw [adgGo_ruleA h.1 h.2]
      dsimp only
      intro j hj
      rcases List.mem_cons.mp hj with rfl | hj
      · simp only [List.length_cons]
        omega
      · obtain ⟨h1, h2⟩ := ih j hj
        simp only [List.length_cons]
        omega
  | case3 tok prev i hA hHas hTok next rest2 ih =>
      have htok : tok = "not" := by simpa using hTok
      subst htok
      rw [adgGo_ruleB_not hHas]
      dsimp only
      intro j hj
      rcases List.mem_cons.mp hj with rfl | hj
      · simp only [List.length_cons]
        omega
      · obtain ⟨h1, h2⟩ := ih j hj
        simp only [List.length_cons]
        omega
  | case4 tok prev i hA hHas hTok =>
      rw [adgGo_ruleB_one tok hA hHas]
      dsimp only
      intro j hj
      simp only [List.mem_singleton] at hj
      subst hj
      simp only [List.length_singleton]
      omega
  | case5 tok rest prev i hA hHas hTok ih =>
      have hne : (tok == "not") = false := by simpa using hTok
      rw [adgGo_ruleB_else tok hA hHas hne]
      dsimp only
      intro j hj
      rcases List.mem_cons.mp hj with rfl | hj
      · simp only [List.length_cons]
        omega
      · obtain ⟨h1, h2⟩ := ih j hj
        simp only [List.length_cons]
        omega
  | case6 tok rest prev i hA hHas ih =>
      rw [adgGo_default tok hA hHas]
      dsimp only
      intro j hj
      obtain ⟨h1, h2⟩ := ih j hj
      simp only [List.length_cons]
      omega

/-- The recorded correction indices are strictly increasing. -/
theorem adgGo_indices_sorted (ts : List String) (prev : String) (i : Nat) :
    (adgGo ts prev i).2.Pairwise (· < ·) := by
  induction ts, prev, i using adgGo.induct with
  | case1 prev i => simp [adgGo]
  | case2 tok rest prev i h ih =>
      rw [adgGo_ruleA h.1 h.2]
      dsimp only
      refine List.pairwise_cons.mpr ⟨?_, ih⟩
      intro j hj
      have := (adgGo_indices_bounds rest (ingOf tok) (i + 1) j hj).1
      omega
  | case3 tok prev i hA hHas hTok next rest2 ih =>
      have htok : tok = "not" := by simpa using hTok
      subst htok
      rw [adgGo_ruleB_not hHas]
      dsimp only
      refine List.pairwise_cons.mpr ⟨?_, ih⟩
      intro j hj
      have := (adgGo_indices_bounds rest2 (pastOf next) (i + 2) j hj).1
      omega
  | case4 tok prev i hA hHas hTok =>
      rw [adgGo_ruleB_one tok hA hHas]
      simp
  | case5 tok rest prev i hA hHas hTok ih =>
      have hne : (tok == "not") = false := by simpa using hTok
      rw [adgGo_ruleB_else tok hA hHas hne]
      dsimp only
      refine List.pairwise_cons.mpr ⟨?_, ih⟩
      intro j hj
      have := (adgGo_indices_bounds rest (pastOf tok) (i + 1) j hj).1
      omega
  | case6 tok rest prev i hA hHas ih =>
      rw [adgGo_default tok hA hHas]
      dsimp only
      exact ih

/-- Frame property of a single pass: an output position whose input index was
not recorded as corrected carries the input lemma unchanged. -/
theorem adgGo_frame (ts : List String) (prev : String) (i : Nat) :
    ∀ k : Nat, i + k ∉ (adgGo ts prev i).2 →
      (adgGo ts prev i).1.getD k "" = ts.getD k "" := by
  induction ts, prev, i using adgGo.induct with
  | case1 prev i => intro k hk; simp [adgGo]
  | case2 tok rest prev i h ih =>
      rw [adgGo_ruleA h.1 h.2]
      dsimp only
      intro k hk
      cases k with
      | zero => exact absurd (List.mem_cons_self _ _) hk
      | succ k =>
          have hk2 : (i + 1) + k ∉ (adgGo rest (ingOf tok) (i + 1)).2 := by
            intro hm
            apply hk
            have he : i + (k + 1) = (i + 1) + k := by omega
            rw [he]
            exact List.mem_cons_of_mem _ hm
          simpa using ih k hk2
  | case3 tok prev i hA hHas hTok next rest2 ih =>
      have htok : tok = "not" := by simpa using hTok
      subst htok
      rw [adgGo_ruleB_not hHas]
      dsimp only
      intro k hk
      cases k with
      | zero => rfl
      | succ k =>
          cases k with
          | zero => exact absurd (List.mem_cons_self _ _) hk
          | succ k =>
              have hk2 : (i + 2) + k ∉ (adgGo rest2 (pastOf next) (i + 2)).2 := by
                intro hm
                apply hk
                have he : i + (k + 1 + 1) = (i + 1) + 1 + k := by omega
                rw [he]
                exact List.mem_cons_of_mem _ (by
                  have he2 : (i + 1) + 1 + k = (i + 2) + k := by omega
                  rw [he2]
                  exact hm)
              simpa using ih k hk2
  | case4 tok prev i hA hHas hTok =>
      rw [adgGo_ruleB_one tok hA hHas]
      dsimp only
      intro k hk
      cases k with
      | zero => exact absurd (List.mem_singleton.mpr rfl) hk
      | succ k => simp
  | case5 tok rest prev i hA hHas hTok ih =>
      have hne : (tok == "not") = false := by simpa using hTok
      rw [adgGo_ruleB_else tok hA hHas hne]
      dsimp only
      intro k hk
      cases k with
      | zero => exact absurd (List.mem_cons_self _ _) hk
      | succ k =>
          have hk2 : (i + 1) + k ∉ (adgGo rest (pastOf tok) (i + 1)).2 := by
            intro hm
            apply hk
            have he : i + (k + 1) = (i + 1) + k := by omega
            rw [he]
            exact List.mem_cons_of_mem _ hm
          simpa using ih k hk2
  | case6 tok rest prev i hA hHas ih =>
      rw [adgGo_default tok hA hHas]
      dsimp only
      intro k hk
      cases k with
      | zero => rfl
      | succ k =>
          have hk2 : (i + 1) + k ∉ (adgGo rest tok (i + 1)).2 := by
            intro hm
            apply hk
            have he : i + (k + 1) = (i + 1) + k := by omega
            rw [he]
            exact hm
          simpa using ih k hk2

/-- Re-running the state machine on the display tokens of a previous pass
reproduces exactly those display tokens, for every starting index of the
second pass. -/
theorem adgGo_tokens_idem (ts : List String) (prev : String) (i : Nat) :
    ∀ i' : Nat, (adgGo (adgGo ts prev i).1 prev i').1 = (adgGo ts prev i).1 := by
  induction ts, prev, i using adgGo.induct with
  | case1 prev i => intro i'; simp [adgGo]
  | case2 tok rest prev i h ih =>
      intro i'
      obtain ⟨v, hv⟩ := Option.isSome_iff_exists.mp h.2
      have hnone : BASE_VERB_TO_ING (ingOf tok) = none := by
        unfold ingOf
        rw [hv, Option.getD_some]
        exact ing_value_not_key _ _ hv
      rw [adgGo_ruleA h.1 h.2]
      dsimp only
      rw [adgGo_default (ingOf tok) (by simp [hnone]) (be_not_has h.1)]
      dsimp only
      rw [ih (i' + 1)]
  | case3 tok prev i hA hHas hTok next rest2 ih =>
      intro i'
      have htok : tok = "not" := by simpa using hTok
      subst htok
      rw [adgGo_ruleB_not hHas]
      dsimp only
      rw [adgGo_ruleB_not hHas]
      dsimp only
      rw [pastOf_idem, ih (i' + 2)]
  | case4 tok prev i hA hHas hTok =>
      intro i'
      have htok : tok = "not" := by simpa using hTok
      subst htok
      rw [adgGo_ruleB_one "not" hA hHas]
      dsimp only
      have hpn : pastOf "not" = "not" := rfl
      rw [hpn]
      rw [adgGo_ruleB_one "not" hA hHas i']
      rw [hpn]
  | case5 tok rest prev i hA hHas hTok ih =>
      intro i'
      have hne : (tok == "not") = false := by simpa using hTok
      rw [adgGo_ruleB_else tok hA hHas hne]
      dsimp only
      have hA2 : ¬(prev ∈ BE_SET ∧ (BASE_VERB_TO_ING (pastOf tok)).isSome = true) := by
        simp [has_not_be hHas]
      have hne2 : (pastOf tok == "not") = false := by
        simp only [beq_eq_false_iff_ne, ne_eq]
        intro hp
        have := pastOf_eq_not tok hp
        simp [this] at hne
      rw [adgGo_ruleB_else (pastOf tok) hA2 hHas hne2]
      dsimp only
      rw [pastOf_idem, ih (i' + 1)]
  | case6 tok rest prev i hA hHas ih =>
      intro i'
      rw [adgGo_default tok hA hHas]
      dsimp only
      rw [adgGo_default tok hA hHas]
      dsimp only
      rw [ih (i' + 1)]

/-! ## Claims about the Grammar Transformer -/

/-- Claim C4: for every input lemma sequence, the display-token sequence
produced by the Grammar Transformer has exactly the same length as the input
sequence (Rule B's negation branch consumes two inputs but emits two outputs,
so length is preserved in all cases). -/
theorem C4_display_length_preserved (tokens : List String) :
    (apply_display_grammar tokens).1.length = tokens.length :=
  adgGo_length tokens "" 0

/-- Claim C7: every index in the corrected-position set returned by the
Grammar Transformer is a valid index into the returned display-token sequence
(being a natural number it is at least 0, and it is strictly less than the
length of the display sequence). -/
theorem C7_corrected_indices_valid (tokens : List String) (j : Nat)
    (hj : j ∈ (apply_display_grammar tokens).2) :
    j < (apply_display_grammar tokens).1.length := by
  have hb := (adgGo_indices_bounds tokens "" 0 j hj).2
  have hl := adgGo_length tokens "" 0
  unfold apply_display_grammar
  omega

/-- Witness for C7 on Example 1 of the spec. -/
theorem C7_corrected_indices_valid_witness :
    2 ∈ (apply_display_grammar ["bitcoin", "is", "rise"]).2 ∧
      2 < (apply_display_grammar ["bitcoin", "is", "rise"]).1.length :=
  ⟨by decide, C7_corrected_indices_valid ["bitcoin", "is", "rise"] 2 (by decide)⟩

/-- Claim C10: the list of corrected positions returned by the Grammar
Transformer is strictly increasing (hence duplicate-free). -/
theorem C10_corrected_indices_strictly_increasing (tokens : List String) :
    (apply_display_grammar tokens).2.Pairwise (· < ·) :=
  adgGo_indices_sorted tokens "" 0

/-- Claim C9 (frame property): every output position NOT in the returned
corrected-position set holds exactly the input lemma at that position. Since
the display sequence has the same length as the input, positions are compared
via `getD` with default `""`. -/
theorem C9_uncorrected_positions_unchanged (tokens : List String) (j : Nat)
    (hj : j ∉ (apply_display_grammar tokens).2) :
    (apply_display_grammar tokens).1.getD j "" = tokens.getD j "" := by
  have h := adgGo_frame tokens "" 0 j (by simpa using hj)
  simpa using h

/-- Witness for C9 on Example 1 of the spec: position 1 ("is") is not
corrected and is passed through unchanged. -/
theorem C9_uncorrected_positions_unchanged_witness :
    1 ∉ (apply_display_grammar ["bitcoin", "is", "rise"]).2 ∧
      (apply_display_grammar ["bitcoin", "is", "rise"]).1.getD 1 "" =
        ["bitcoin", "is", "rise"].getD 1 "" :=
  ⟨by decide, C9_uncorrected_positions_unchanged ["bitcoin", "is", "rise"] 1 (by decide)⟩

/-- Claim C3 fails as stated: on the lemma sequence ["is", "rise"] the first
pass corrects position 1 ("rise" → "rising"), but a second pass on the
display output ["is", "rising"] returns an empty corrected-position set
(Rule A does not re-fire on "rising"), so the result of re-running the
transformer is not the same result. -/
theorem C3_counterexample :
    apply_display_grammar ["is", "rise"] = (["is", "rising"], [1]) ∧
      apply_display_grammar ((apply_display_grammar ["is", "rise"]).1) =
        (["is", "rising"], []) := by
  constructor <;> decide

/-- Claim C3 amended: the Grammar Transformer is idempotent on display
tokens — applying it to its own display-token output yields the same
display-token sequence — but the corrected-position set is not preserved in
general (Rule A positions are dropped on the second pass, while Rule B
positions are re-recorded). -/
theorem C3_amended_display_tokens_idempotent (tokens : List String) :
    (apply_display_grammar ((apply_display_grammar tokens).1)).1 =
      (apply_display_grammar tokens).1 :=
  adgGo_tokens_idem tokens "" 0 0

/-! ## Tokenizer (`preprocess_user_input`, user_preprocess.py lines 63-82)

The tokenizer is `re.findall(r'\b[a-z]+\b', text)` applied to the lowercased
text. A `\b` word boundary holds between a word character (ASCII letter,
digit or underscore) and a non-word character or a string edge. A maximal
lowercase run therefore matches iff the character before it (if any) and the
character after it (if any) are both non-word characters; no proper sub-run
of a maximal run can match, because its inner endpoints sit between two word
characters. `scanAux` is this matcher as a left-to-right state machine:
`leftOk` records whether the character preceding the current position (or
current run) is absent or a non-word character, and `acc` holds the current
run, reversed. -/

/-- Python regex word characters `\w`, at ASCII granularity. -/
def isWordChar (c : Char) : Bool := c.isAlphanum || c == '_'

/-- The character class `[a-z]`. -/
def isLowerAZ (c : Char) : Bool := decide ('a' ≤ c) && decide (c ≤ 'z')

/-- Scanner for `re.findall(r'\b[a-z]+\b', ·)`. -/
def scanAux : Bool → List Char → List Char → List String
  | leftOk, acc, [] =>
      match acc with
      | [] => []
      | _ :: _ => if leftOk then [String.mk acc.reverse] else []
  | leftOk, acc, c :: cs =>
      if isLowerAZ c then scanAux leftOk (c :: acc) cs
      else
        match acc with
        | [] => scanAux (!isWordChar c) [] cs
        | _ :: _ =>
            if leftOk && !isWordChar c then
              String.mk acc.reverse :: scanAux (!isWordChar c) [] cs
            else scanAux (!isWordChar c) [] cs

/-- The token extraction step of `preprocess_user_input`:
`re.findall(r'\b[a-z]+\b', text.lower())` (`str.lower` modelled
character-wise, exact on ASCII). -/
def tokenize (text : String) : List String :=
  scanAux true [] (text.toList.map Char.toLower)

example : tokenize "Bitcoin is rise this year" = ["bitcoin", "is", "rise", "this", "year"] := by
  decide

example : tokenize "62% of Bitcoin has not move in a year" =
    ["of", "bitcoin", "has", "not", "move", "in", "a", "year"] := by decide

/-- The maximal-alphabetic-run splitter (the tokenizer the spec describes):
every non-alphabetic character acts as a separator. `acc` holds the current
run, reversed. -/
def alphaRunsAux : List Char → List Char → List String
  | acc, [] =>
      match acc with
      | [] => []
      | _ :: _ => [String.mk acc.reverse]
  | acc, c :: cs =>
      if isLowerAZ c then alphaRunsAux (c :: acc) cs
      else
        match acc with
        | [] => alphaRunsAux [] cs
        | _ :: _ => String.mk acc.reverse :: alphaRunsAux [] cs

/-- Maximal runs of lowercase alphabetic characters. -/
def alphaRuns (l : List Char) : List String := alphaRunsAux [] l

/-- Every token emitted by the scanner is nonempty and consists of lowercase
alphabetic characters only (given that the pending run does). -/
theorem scanAux_tokens_alpha (l : List Char) :
    ∀ (leftOk : Bool) (acc : List Char), (∀ c ∈ acc, isLowerAZ c = true) →
      ∀ t ∈ scanAux leftOk acc l, t ≠ "" ∧ ∀ c ∈ t.toList, isLowerAZ c = true := by
  induction l with
  | nil =>
      intro leftOk acc hacc t ht
      match acc, hacc with
      | [], _ => simp [scanAux] at ht
      | a :: acc2, hacc =>
          rw [scanAux.eq_def] at ht
          dsimp only at ht
          by_cases hL : leftOk = true
          · rw [if_pos hL] at ht
            simp only [List.mem_singleton] at ht
            subst ht
            constructor
            · simp [String.ext_iff]
            · intro c hc
              simp only [String.toList] at hc
              exact hacc c (List.mem_reverse.mp hc)
          · rw [if_neg hL] at ht
            simp at ht
  | cons c cs ih =>
      intro leftOk acc hacc t ht
      rw [scanAux.eq_def] at ht
      dsimp only at ht
      by_cases hc : isLowerAZ c = true
      · rw [if_pos hc] at ht
        exact ih leftOk (c :: acc) (by
          intro d hd
          rcases List.mem_cons.mp hd with rfl | hd
          · exact hc
          · exact hacc d hd) t ht
      · rw [if_neg hc] at ht
        match acc, hacc with
        | [], _ => exact ih _ [] (by simp) t ht
        | a :: acc2, hacc =>
            by_cases hE : (leftOk && !isWordChar c) = true
            · rw [if_pos hE] at ht
              rcases List.mem_cons.mp ht with rfl | ht
              · constructor
                · simp [String.ext_iff]
                · intro d hd
                  simp only [String.toList] at hd
                  exact hacc d (List.mem_reverse.mp hd)
              · exact ih _ [] (by simp) t ht
            · rw [if_neg hE] at ht
              exact ih _ [] (by simp) t ht

/-- When every character is either lowercase-alphabetic or a non-word
character, word boundaries never block a run, and the scanner coincides with
the maximal-run splitter. -/
theorem scanAux_eq_alphaRuns (l : List Char)
    (h : ∀ c ∈ l, isLowerAZ c = true ∨ isWordChar c = false) :
    ∀ acc, scanAux true acc l = alphaRunsAux acc l := by
  induction l with
  | nil =>
      intro acc
      rw [scanAux.eq_def, alphaRunsAux.eq_def]
      dsimp only
      match acc with
      | [] => rfl
      | a :: acc2 => simp
  | cons c cs ih =>
      intro acc
      have hc := h c (List.mem_cons_self _ _)
      have hcs : ∀ d ∈ cs, isLowerAZ d = true ∨ isWordChar d = false := fun d hd =>
        h d (List.mem_cons_of_mem _ hd)
      rw [scanAux.eq_def, alphaRunsAux.eq_def]
      dsimp only
      by_cases hlow : isLowerAZ c = true
      · rw [if_pos hlow, if_pos hlow]
        exact ih hcs (c :: acc)
      · have hw : isWordChar c = false := by
          rcases hc with hc | hc
          · exact absurd hc hlow
          · exact hc
        rw [if_neg hlow, if_neg hlow]
        match acc with
        | [] =>
            rw [hw]
            exact ih hcs []
        | a :: acc2 =>
            rw [hw]
            simp only [Bool.not_false, Bool.and_true]
            rw [ih hcs []]
            simp

/-- Claim C2 fails as stated: for the input "abc123" the maximal alphabetic
run "abc" is NOT extracted — the `\b` after "c" fails because the digit "1"
is a word character — so the tokenizer returns no token at all instead of
["abc"]. -/
theorem C2_counterexample :
    tokenize "abc123" = [] ∧ tokenize "abc123" ≠ ["abc"] := by
  constructor <;> decide

/-- Claim C2 amended: every extracted token is a nonempty run of lowercase
alphabetic characters (digits, punctuation and symbols never appear in the
output), and for input whose lowercased characters are all either lowercase
letters or non-word characters (i.e. the text contains no digit or
underscore adjacent to anything — no digits or underscores at all), the
tokenizer extracts exactly the maximal runs of alphabetic characters, every
other character acting as a separator. A maximal alphabetic run that touches
a digit or underscore is dropped entirely (see the counterexample). -/
theorem C2_amended_tokenizer (text : String) :
    (∀ t ∈ tokenize text, t ≠ "" ∧ ∀ c ∈ t.toList, isLowerAZ c = true) ∧
      ((∀ c ∈ text.toList.map Char.toLower, isLowerAZ c = true ∨ isWordChar c = false) →
        tokenize text = alphaRuns (text.toList.map Char.toLower)) :=
  ⟨fun t ht => scanAux_tokens_alpha (text.toList.map Char.toLower) true [] (by simp) t ht,
   fun h => scanAux_eq_alphaRuns (text.toList.map Char.toLower) h []⟩

/-- Witness for the conditional part of the amended C2, on Example 1's text. -/
theorem C2_amended_tokenizer_witness :
    (∀ c ∈ ("Bitcoin is rise this year").toList.map Char.toLower,
        isLowerAZ c = true ∨ isWordChar c = false) ∧
      tokenize "Bitcoin is rise this year" =
        alphaRuns (("Bitcoin is rise this year").toList.map Char.toLower) :=
  ⟨by decide, (C2_amended_tokenizer "Bitcoin is rise this year").2 (by decide)⟩

/-! ## Lemmatization (`preprocess_user_input`) -/

/-- `preprocess_user_input(text)` from user_preprocess.py. The NLTK
part-of-speech tagger and the two WordNet lemmatizer modes
(`lemmatize(word, pos="v")` and `lemmatize(word)`) are external components
and enter the embedding as parameters: `tagger` returns (word, tag) pairs
for the token list, and the loop keeps auxiliary verbs unchanged, applies
the verb lemmatizer to tokens whose tag starts with "V", and the default
(noun) lemmatizer otherwise. -/
def preprocess_user_input (tagger : List String → List (String × String))
    (lemmatize_verb lemmatize_default : String → String) (text : String) : List String :=
  (tagger (tokenize text)).map fun wt =>
    if wt.1 ∈ AUX_VERBS then wt.1
    else if wt.2.startsWith "V" then lemmatize_verb wt.1
    else lemmatize_default wt.1

/-- A text with no alphabetic characters produces no tokens. -/
theorem scanAux_no_alpha (l : List Char) (h : ∀ c ∈ l, isLowerAZ c = false) :
    ∀ leftOk, scanAux leftOk [] l = [] := by
  induction l with
  | nil => intro leftOk; rfl
  | cons c cs ih =>
      intro leftOk
      rw [scanAux.eq_def]
      dsimp only
      rw [if_neg (by simp [h c (List.mem_cons_self _ _)])]
      exact ih (fun d hd => h d (List.mem_cons_of_mem _ hd)) _

/-- Claim C8: empty or whitespace-only input (more generally, input whose
lowercased text contains no alphabetic character, hence no alphabetic run)
is not an error: the tokenizer returns an empty token sequence, the
lemmatization loop over it returns an empty lemma sequence (the NLTK tagger
maps an empty token list to an empty tag list), and the Grammar Transformer
on the empty sequence returns an empty display sequence with an empty
corrected-position set. -/
theorem C8_empty_input_not_error (tagger : List String → List (String × String))
    (lemmatize_verb lemmatize_default : String → String) (text : String)
    (halpha : ∀ c ∈ text.toList.map Char.toLower, isLowerAZ c = false)
    (htagger : tagger [] = []) :
    tokenize text = [] ∧
      preprocess_user_input tagger lemmatize_verb lemmatize_default text = [] ∧
      apply_display_grammar [] = ([], []) := by
  have ht : tokenize text = [] := scanAux_no_alpha _ halpha true
  refine ⟨ht, ?_, rfl⟩
  unfold preprocess_user_input
  rw [ht, htagger]
  rfl

/-- Witness for C8 on a whitespace-only input. -/
theorem C8_empty_input_not_error_witness :
    (∀ c ∈ ("  \t ").toList.map Char.toLower, isLowerAZ c = false) ∧
      (fun _ : List String => ([] : List (String × String))) [] = [] ∧
      tokenize "  \t " = [] ∧
      preprocess_user_input (fun _ => []) id id "  \t " = [] ∧
      apply_display_grammar [] = ([], []) :=
  ⟨by decide, rfl,
   C8_empty_input_not_error (fun _ => []) id id "  \t " (by decide) rfl⟩

/-! ## Edit distance and the Candidate Ranker -/

/-- `nltk.metrics.edit_distance(a, b)` with default arguments
(`substitution_cost=1`, `transpositions=False`), as called by app.py: exact
unit-cost Levenshtein distance. -/
def edit_distance (a b : String) : Nat :=
  levenshtein Levenshtein.defaultCost a.toList b.toList

/-- The per-word suggestion sort of `suggestion_map` (app.py lines 89-95):
Python's stable `sorted(suggestions, key=lambda w: edit_distance(word, w))`,
modelled as a stable insertion sort with the ≤-by-key relation. -/
def sortSuggestions (word : String) (suggestions : List String) : List String :=
  List.insertionSort (fun a b => edit_distance word a ≤ edit_distance word b) suggestions

/-- Lexicographic (code-point) comparison of character lists, Python's `str`
order restricted to the relevant case. -/
def lexLe : List Char → List Char → Bool
  | [], _ => true
  | _ :: _, [] => false
  | x :: xs, y :: ys => if x = y then lexLe xs ys else decide (x < y)

theorem lexLe_total (a : List Char) : ∀ b, lexLe a b = true ∨ lexLe b a = true := by
  induction a with
  | nil => intro b; left; rfl
  | cons x xs ih =>
      intro b
      cases b with
      | nil => right; rfl
      | cons y ys =>
          by_cases hxy : x = y
          · subst hxy
            rcases ih ys with h | h
            · left; simpa [lexLe] using h
            · right; simpa [lexLe] using h
          · rcases lt_or_gt_of_ne hxy with h | h
            · left; simp [lexLe, hxy, h]
            · right; simp [lexLe, Ne.symm hxy, h]

theorem lexLe_trans (a : List Char) :
    ∀ b c, lexLe a b = true → lexLe b c = true → lexLe a c = true := by
  induction a with
  | nil => intro b c h1 h2; rfl
  | cons x xs ih =>
      intro b c h1 h2
      cases b with
      | nil => simp [lexLe] at h1
      | cons y ys =>
          cases c with
          | nil => simp [lexLe] at h2
          | cons z zs =>
              simp only [lexLe] at h1 h2 ⊢
              by_cases hxy : x = y
              · subst hxy
                rw [if_pos rfl] at h1
                by_cases hxz : x = z
                · subst hxz
                  rw [if_pos rfl] at h2 ⊢
                  exact ih ys zs h1 h2
                · rw [if_neg hxz] at h2 ⊢
                  exact h2
              · rw [if_neg hxy] at h1
                have hlt1 : x < y := of_decide_eq_true h1
                by_cases hyz : y = z
                · subst hyz
                  rw [if_neg hxy]
                  exact h1
                · rw [if_neg hyz] at h2
                  have hlt2 : y < z := of_decide_eq_true h2
                  have hlt : x < z := lt_trans hlt1 hlt2
                  rw [if_neg (ne_of_lt hlt)]
                  exact decide_eq_true hlt

/-- Modelled from the spec: the ordering contract of the Candidate Ranker
inside `corrections.detect_errors` (corrections.py is imported by app.py but
is not among the available sources). Spec 4.4: candidates are ordered by
ascending exact edit distance; when distances are equal, the candidate with
higher corpus frequency (WordFrequency) comes first; remaining ties are
broken lexicographically. -/
def suggOrder (freq : String → Nat) (word a b : String) : Prop :=
  edit_distance word a < edit_distance word b ∨
    (edit_distance word a = edit_distance word b ∧
      (freq b < freq a ∨ (freq a = freq b ∧ lexLe a.toList b.toList = true)))

instance (freq : String → Nat) (word : String) : DecidableRel (suggOrder freq word) :=
  fun a b => by unfold suggOrder; infer_instance

/-- Modelled from the spec: the suggestion list produced by the Candidate
Ranker for a flagged word, before app.py re-sorts it. -/
def rankerSuggestions (freq : String → Nat) (word : String) (cands : List String) :
    List String :=
  List.insertionSort (suggOrder freq word) cands

theorem suggOrder_total (freq : String → Nat) (word : String) (a b : String) :
    suggOrder freq word a b ∨ suggOrder freq word b a := by
  unfold suggOrder
  rcases Nat.lt_trichotomy (edit_distance word a) (edit_distance word b) with h | h | h
  · exact Or.inl (Or.inl h)
  · rcases Nat.lt_trichotomy (freq a) (freq b) with hf | hf | hf
    · exact Or.inr (Or.inr ⟨h.symm, Or.inl hf⟩)
    · rcases lexLe_total a.toList b.toList with hl | hl
      · exact Or.inl (Or.inr ⟨h, Or.inr ⟨hf, hl⟩⟩)
      · exact Or.inr (Or.inr ⟨h.symm, Or.inr ⟨hf.symm, hl⟩⟩)
    · exact Or.inl (Or.inr ⟨h, Or.inl hf⟩)
  · exact Or.inr (Or.inl h)

theorem suggOrder_trans (freq : String → Nat) (word : String) (a b c : String)
    (h1 : suggOrder freq word a b) (h2 : suggOrder freq word b c) :
    suggOrder freq word a c := by
  unfold suggOrder at h1 h2 ⊢
  rcases h1 with h1 | ⟨e1, h1⟩
  · rcases h2 with h2 | ⟨e2, h2⟩
    · exact Or.inl (by omega)
    · exact Or.inl (by omega)
  · rcases h2 with h2 | ⟨e2, h2⟩
    · exact Or.inl (by omega)
    · refine Or.inr ⟨by omega, ?_⟩
      rcases h1 with h1 | ⟨f1, l1⟩
      · rcases h2 with h2 | ⟨f2, l2⟩
        · exact Or.inl (by omega)
        · exact Or.inl (by omega)
      · rcases h2 with h2 | ⟨f2, l2⟩
        · exact Or.inl (by omega)
        · exact Or.inr ⟨by omega, lexLe_trans _ _ _ l1 l2⟩

/-- Claim C1 fails as stated: the unit-cost Levenshtein distance from
"recieve" to "relieve" is 1 (the single substitution of "c" by "l"), not 3,
so the suggestion list sorted ascending by edit distance begins
[relieve, receive] rather than [receive, relieve]. -/
theorem C1_counterexample :
    edit_distance "recieve" "relieve" = 1 ∧
      sortSuggestions "recieve" ["receive", "relieve"] = ["relieve", "receive"] := by
  constructor <;> decide

/-- Claim C1 amended: for the misspelled lemma "recieve" checked against a
vocabulary containing "receive" and "relieve", the exact unit-cost
Levenshtein distance to "receive" is 2 and to "relieve" is 1, and the
ranker's suggestion list (sorted ascending by edit distance) begins
[relieve, receive]. -/
theorem C1_amended_distances_and_order :
    edit_distance "recieve" "receive" = 2 ∧
      edit_distance "recieve" "relieve" = 1 ∧
      sortSuggestions "recieve" ["receive", "relieve"] = ["relieve", "receive"] :=
  ⟨by decide, by decide, by decide⟩

/-- Claim C5: the final suggestion ordering (the spec-modelled ranker output
re-sorted by app.py's stable edit-distance sort) is ascending in edit
distance; candidates at equal edit distance are ordered by higher corpus
frequency first, remaining ties lexicographically — hence the ordering is
deterministic for every input. -/
theorem C5_tie_break_frequency_then_lex (freq : String → Nat) (word : String)
    (cands : List String) :
    (sortSuggestions word (rankerSuggestions freq word cands)).Pairwise
      (fun a b => edit_distance word a ≤ edit_distance word b ∧
        (edit_distance word a = edit_distance word b →
          freq b ≤ freq a ∧ (freq a = freq b → lexLe a.toList b.toList = true))) := by
  haveI : IsTotal String (suggOrder freq word) := ⟨suggOrder_total freq word⟩
  haveI : IsTrans String (suggOrder freq word) :=
    ⟨fun a b c => suggOrder_trans freq word a b c⟩
  have hs : (rankerSuggestions freq word cands).Sorted (suggOrder freq word) :=
    List.sorted_insertionSort _ _
  have hd : (rankerSuggestions freq word cands).Sorted
      (fun a b => edit_distance word a ≤ edit_distance word b) := by
    refine hs.imp ?_
    intro a b h
    rcases h with h | ⟨e, _⟩
    · exact le_of_lt h
    · exact le_of_eq e
  have heq : sortSuggestions word (rankerSuggestions freq word cands) =
      rankerSuggestions freq word cands := by
    unfold sortSuggestions
    exact hd.insertionSort_eq
  rw [heq]
  refine hs.imp ?_
  intro a b h
  rcases h with h | ⟨e, h⟩
  · exact ⟨le_of_lt h, fun he => absurd he (by omega)⟩
  · refine ⟨le_of_eq e, fun _ => ?_⟩
    rcases h with h | ⟨f, l⟩
    · exact ⟨le_of_lt h, fun hf => absurd hf (by omega)⟩
    · exact ⟨le_of_eq f.symm, fun _ => l⟩

/-! ## Spelling Detector -/

/-- Modelled from the spec: the flagged-lemma set of
`corrections.detect_errors` (corrections.py is imported by app.py but is not
among the available sources). Spec 4.3: the detector returns the
deduplicated lemmas that are not in the vocabulary AND not function words
AND not auxiliary verbs. -/
def detect_flagged (vocab lemmas : List String) : List String :=
  (lemmas.filter fun w =>
    !(vocab.contains w) && !(FUNCTION_WORDS.contains w) && !(AUX_VERBS.contains w)).dedup

/-- Claim C6: for every input lemma sequence and every vocabulary, no member
of the function-word set and no member of the auxiliary-verb set ever
appears in the flagged (spelling-error) set, regardless of vocabulary
membership. -/
theorem C6_function_and_aux_words_never_flagged (vocab lemmas : List String)
    (w : String) (hw : w ∈ FUNCTION_WORDS ∨ w ∈ AUX_VERBS) :
    w ∉ detect_flagged vocab lemmas := by
  intro hmem
  unfold detect_flagged at hmem
  rw [List.mem_dedup] at hmem
  have hf := List.of_mem_filter hmem
  simp only [Bool.and_eq_true, Bool.not_eq_true', List.contains, List.elem_eq_mem,
    decide_eq_false_iff_not] at hf
  rcases hw with hw | hw
  · exact hf.1.2 hw
  · exact hf.2 hw

/-- Witness for C6: the function word "the" is absent from an empty
vocabulary yet is not flagged. -/
theorem C6_function_and_aux_words_never_flagged_witness :
    ("the" ∈ FUNCTION_WORDS ∨ "the" ∈ AUX_VERBS) ∧
      "the" ∉ detect_flagged [] ["the", "bitcon"] :=
  ⟨Or.inl (by decide),
   C6_function_and_aux_words_never_flagged [] ["the", "bitcon"] "the" (Or.inl (by decide))⟩

end SECS
